import Mathlib

/-!
Shallow embedding of `src/resolution_engine.py`, a resolution-by-refutation
prover over string-represented first-order literals.  Literals are Python
strings; we model them as Lean `String`s and translate the string-level
operations (regex literal parsing, unification over flat argument lists,
clause resolution with tautology filtering, and the refutation chain loop)
directly.  Python's unbounded `while True` loop and the possibly divergent
recursion in `unificar_args` are modelled with explicit fuel; a raised
`ValueError` is modelled as an explicit error outcome.
-/

/-- Outcome of a (possibly failing, possibly fuel-exhausted) Python computation:
`ok a` is a normal return, `valueError` a raised `ValueError`, `fuelOut`
non-termination within the given fuel. -/
inductive PyRes (α : Type) where
  | ok : α → PyRes α
  | valueError : PyRes α
  | fuelOut : PyRes α
deriving DecidableEq, Repr

/-- Whitespace characters recognised by Python's `str.strip` / regex `\s`
(restricted to the ASCII range, which covers every input this program uses). -/
def pyIsSpace (c : Char) : Bool :=
  c == ' ' || c == '\t' || c == '\n' || c == '\r' || c == '\x0b' || c == '\x0c'

/-- Python `str.strip` on a character list: drop whitespace from both ends. -/
def pyStripChars (l : List Char) : List Char :=
  ((l.dropWhile pyIsSpace).reverse.dropWhile pyIsSpace).reverse

/-- Python `str.strip` on strings. -/
def pyStripStr (s : String) : String :=
  String.mk (pyStripChars s.data)

/-- Characters matched by the regex class `\w` (ASCII range): letters, digits, `_`. -/
def wordChar (c : Char) : Bool :=
  c.isAlpha || c.isDigit || c == '_'

/-- Characters allowed to start an identifier by the regex `[A-Za-z_]`. -/
def identStart (c : Char) : Bool :=
  c.isAlpha || c == '_'

/-- Match of the anchored regex `^([A-Za-z_]\w*)\s*(?:\((.*)\))?$` against an
already-stripped character list: returns the identifier (group 1) and, when the
parenthesized part is present, its raw inside text (group 2).  `.` does not
match a newline, and greediness forces group 2 to extend to the last character,
which must be `)`. -/
def matchCore (s : List Char) : Option (String × Option String) :=
  match s with
  | [] => none
  | c :: rest =>
    if identStart c then
      let w := rest.takeWhile wordChar
      let r1 := rest.dropWhile wordChar
      let r2 := r1.dropWhile pyIsSpace
      match r2 with
      | [] => some (String.mk (c :: w), none)
      | '(' :: r3 =>
        match r3.reverse with
        | [] => none
        | d :: irev =>
          if d == ')' && !(irev.contains '\n') then
            some (String.mk (c :: w), some (String.mk irev.reverse))
          else
            none
      | _ => none
    else none

/-- Negation stripping plus regex match of `parse_literal`: from the raw literal
text, compute the negation flag, the predicate and the raw argument text
(group 2 of the regex), without yet splitting the arguments. -/
def parseCore (lit : String) : Option (Bool × String × Option String) :=
  let s0 := pyStripChars lit.data
  match s0 with
  | '¬' :: rest =>
    match matchCore (pyStripChars rest) with
    | none => none
    | some (pred, g2) => some (true, pred, g2)
  | _ =>
    match matchCore s0 with
    | none => none
    | some (pred, g2) => some (false, pred, g2)

/-- Python `str.split(",")` on a character list: split at every comma; the
result is always non-empty and empty pieces are kept. -/
def pySplitComma : List Char → List (List Char)
  | [] => [[]]
  | c :: r =>
    if c == ',' then [] :: pySplitComma r
    else
      match pySplitComma r with
      | [] => [[c]]
      | h :: t => (c :: h) :: t

/-- Argument list made from the raw group-2 text as in `parse_literal`:
absent or empty (Python-falsy) group yields no arguments, otherwise the text is
split at commas and each piece is stripped. -/
def argsOf : Option String → List String
  | none => []
  | some g =>
    if g = "" then []
    else (pySplitComma g.data).map (fun cs => String.mk (pyStripChars cs))

/-- `parse_literal`: parse a literal text into (negated, predicate, arguments);
`none` models the raised `ValueError` for a malformed literal. -/
def parse_literal (lit : String) : Option (Bool × String × List String) :=
  match parseCore lit with
  | none => none
  | some (neg, pred, g2) => some (neg, pred, argsOf g2)

/-- Python `",".join(args)`. -/
def joinComma : List String → String
  | [] => ""
  | [a] => a
  | a :: rest => a ++ "," ++ joinComma rest

/-- `lit_to_str`: format a parsed literal back to text; the negation marker is
kept, and the parentheses are omitted exactly when the argument list is empty. -/
def lit_to_str (neg : Bool) (pred : String) (args : List String) : String :=
  (if neg then "¬" else "") ++
    (if args = [] then pred else pred ++ "(" ++ joinComma args ++ ")")

/-- Lexicographic (code-point) order on character lists, the order Python uses
to compare strings. -/
def pyLeChars : List Char → List Char → Bool
  | [], _ => true
  | _ :: _, [] => false
  | a :: as, b :: bs =>
    if a < b then true
    else if b < a then false
    else pyLeChars as bs

/-- Python `<=` on strings as a relation, used by `sorted(...)`. -/
def pyLeR (a b : String) : Prop :=
  pyLeChars a.data b.data = true

instance : DecidableRel pyLeR := fun _ _ => inferInstanceAs (Decidable (_ = true))

/-- Python `sorted` on lists of strings: sort under the lexicographic
(code-point) order, which is exactly Python string comparison. -/
def pySort (l : List String) : List String :=
  l.insertionSort pyLeR

/-- `clausula_to_key`: canonical (sorted, per-literal-stripped) form of a
clause, used for membership in the visited set. -/
def clausula_to_key (clausula : List String) : List String :=
  pySort (clausula.map pyStripStr)

/-- Substitutions: Python `Dict[str, str]` with the operations used here
(lookup, copy, insertion of a fresh key), as an insertion-ordered
association list with distinct keys. -/
abbrev Subst : Type := List (String × String)

/-- Python dict lookup `subst[a]` / `a in subst`. -/
def substLookup (subst : Subst) (a : String) : Option String :=
  match subst with
  | [] => none
  | (k, v) :: rest => if k = a then some v else substLookup rest a

/-- Python `subst.get(a, a)`. -/
def substGetD (subst : Subst) (a : String) : String :=
  (substLookup subst a).getD a

/-- Python `subst2 = subst.copy(); subst2[a] = b` for a key `a` not yet
present: append the new binding. -/
def substInsert (subst : Subst) (a b : String) : Subst :=
  subst ++ [(a, b)]

/-- Variable test used by the unifier: Python `a and a[0].islower()`
(non-empty and lowercase-initial, ASCII model). -/
def isVarStr (s : String) : Bool :=
  match s.data with
  | [] => false
  | c :: _ => c.isLower

/-- `unificar_args`: unify two terms under an existing substitution,
dereferencing bound variables by recursion.  The recursion can diverge in
Python (mutually dereferencing bindings), so it carries fuel; `fuelOut`
models that divergence (`RecursionError`). -/
def unificar_args (uf : Nat) (a b : String) (subst : Subst) : PyRes (Option Subst) :=
  if a = b then .ok (some subst)
  else if isVarStr a then
    match substLookup subst a with
    | some v =>
      match uf with
      | 0 => .fuelOut
      | u + 1 => unificar_args u v b subst
    | none => .ok (some (substInsert subst a b))
  else if isVarStr b then
    match substLookup subst b with
    | some v =>
      match uf with
      | 0 => .fuelOut
      | u + 1 => unificar_args u a v subst
    | none => .ok (some (substInsert subst b a))
  else .ok none

/-- Folding step of `unificar_lit`: thread the substitution through the zipped
argument pairs, failing fast on the first positional failure. -/
def unifyZip (uf : Nat) : List (String × String) → Subst → PyRes (Option Subst)
  | [], subst => .ok (some subst)
  | (a, b) :: rest, subst =>
    match unificar_args uf a b subst with
    | .fuelOut => .fuelOut
    | .valueError => .valueError
    | .ok none => .ok none
    | .ok (some subst2) => unifyZip uf rest subst2

/-- `unificar_lit`: unify two literals (same predicate, same arity) by
position-wise term unification starting from the empty substitution. -/
def unificar_lit (uf : Nat) (l1 l2 : Bool × String × List String) : PyRes (Option Subst) :=
  let (_, pred1, args1) := l1
  let (_, pred2, args2) := l2
  if pred1 ≠ pred2 || args1.length ≠ args2.length then .ok none
  else unifyZip uf (args1.zip args2) []

/-- `aplicar_subst_literal`: re-parse a literal, substitute each argument via
`subst.get(a, a)` and re-format; `none` is the propagated parse `ValueError`. -/
def aplicar_subst_literal (literal : String) (subst : Subst) : Option String :=
  match parse_literal literal with
  | none => none
  | some (neg, pred, args) =>
    if args = [] then some (lit_to_str neg pred args)
    else some (lit_to_str neg pred (args.map (substGetD subst)))

/-- An enumeration of a finite set of strings built from a list: any function
returning the list's distinct elements in some order.  Python materialises
such sets with `list(...)`, whose order is unspecified; the canonical
enumeration used by the main definitions is `List.dedup`. -/
def IsSetEnum (enum : List String → List String) : Prop :=
  ∀ l : List String, (enum l).Perm l.dedup

/-- Apply the substitution to every literal of a clause in order, propagating
the first parse failure (the evaluation order of the Python set
comprehension). -/
def aplicarLits (subst : Subst) : List String → Option (List String)
  | [] => some []
  | l :: rest =>
    match aplicar_subst_literal l subst with
    | none => none
    | some s =>
      match aplicarLits subst rest with
      | none => none
      | some ss => some (s :: ss)

/-- `aplicar_subst_clausula`: apply the substitution and deduplicate as a set
(Python `list({...})`), enumerated by `enum`. -/
def aplicar_subst_clausulaE (enum : List String → List String)
    (clausula : List String) (subst : Subst) : Option (List String) :=
  match aplicarLits subst clausula with
  | none => none
  | some mapped => some (enum mapped)

/-- `aplicar_subst_clausula` with the canonical set enumeration. -/
def aplicar_subst_clausula (clausula : List String) (subst : Subst) : Option (List String) :=
  aplicar_subst_clausulaE List.dedup clausula subst

/-- Negation marker test `lit.startswith("¬")`. -/
def startsNeg (lit : String) : Bool :=
  match lit.data with
  | '¬' :: _ => true
  | _ => false

/-- Python `lit[1:]`: drop the first character. -/
def dropFirst (lit : String) : String :=
  String.mk lit.data.tail

/-- Tautology test over the resolvent: some literal starts with `¬` and its
unnegated form also occurs (set membership in `res_set` is membership in the
underlying list). -/
def hasTaut (resolvente : List String) : Bool :=
  resolvente.any (fun lit => startsNeg lit && resolvente.contains (dropFirst lit))

/-- Inner loop of `resolver_actual_con_base` (`for lb in base`), scanning the
candidate clause for a literal complementary to the fixed literal `la` of the
current clause.  The source builds the same positive literal pair in both
branches of its `if neg_a` test, so the two branches are modelled once.  A
tautological resolvent is discarded and scanning continues (`continue`). -/
def resolverInnerE (enum : List String → List String) (uf : Nat)
    (actual base : List String) (la : String) (pa : Bool × String × List String) :
    List String → PyRes (Option (List String × Subst × String))
  | [] => .ok none
  | lb :: rest =>
    match parse_literal lb with
    | none => .valueError
    | some (neg_b, pred_b, args_b) =>
      if pa.2.1 ≠ pred_b then resolverInnerE enum uf actual base la pa rest
      else if pa.1 = neg_b then resolverInnerE enum uf actual base la pa rest
      else
        match unificar_lit uf (false, pa.2.1, pa.2.2) (false, pred_b, args_b) with
        | .fuelOut => .fuelOut
        | .valueError => .valueError
        | .ok none => resolverInnerE enum uf actual base la pa rest
        | .ok (some subst) =>
          match aplicar_subst_clausulaE enum actual subst with
          | none => .valueError
          | some c1_sub =>
            match aplicar_subst_clausulaE enum base subst with
            | none => .valueError
            | some c2_sub =>
              match aplicar_subst_literal la subst with
              | none => .valueError
              | some la_ap =>
                match aplicar_subst_literal lb subst with
                | none => .valueError
                | some lb_ap =>
                  let resolvente :=
                    (c1_sub ++ c2_sub).filter (fun lit => lit ≠ la_ap && lit ≠ lb_ap)
                  if hasTaut resolvente then resolverInnerE enum uf actual base la pa rest
                  else .ok (some (pySort (enum resolvente), subst, la ++ " ↔ " ++ lb))

/-- Outer loop of `resolver_actual_con_base` (`for la in actual`): parse each
literal of the current clause in order and scan the candidate clause with it. -/
def resolverOuterE (enum : List String → List String) (uf : Nat)
    (actual base : List String) : List String → PyRes (Option (List String × Subst × String))
  | [] => .ok none
  | la :: rest =>
    match parse_literal la with
    | none => .valueError
    | some pa =>
      match resolverInnerE enum uf actual base la pa base with
      | .fuelOut => .fuelOut
      | .valueError => .valueError
      | .ok (some r) => .ok (some r)
      | .ok none => resolverOuterE enum uf actual base rest

/-- `resolver_actual_con_base` with an explicit set enumeration: try each pair
of complementary literals in order; on the first successful, non-tautological
unification return the sorted resolvent, the substitution, and the cancelled
pair description. -/
def resolver_actual_con_baseE (enum : List String → List String) (uf : Nat)
    (actual base : List String) : PyRes (Option (List String × Subst × String)) :=
  resolverOuterE enum uf actual base actual

/-- `resolver_actual_con_base` with the canonical set enumeration. -/
def resolver_actual_con_base (uf : Nat) (actual base : List String) :
    PyRes (Option (List String × Subst × String)) :=
  resolver_actual_con_baseE List.dedup uf actual base

/-- One pass of the chain controller over the knowledge base
(`for idx, claus in enumerate(kb)`), taking the first applicable resolution. -/
def tryResolveKBE (enum : List String → List String) (uf : Nat) (actual : List String) :
    List (List String) → PyRes (Option (List String × Subst × String))
  | [] => .ok none
  | claus :: rest =>
    match resolver_actual_con_baseE enum uf actual claus with
    | .fuelOut => .fuelOut
    | .valueError => .valueError
    | .ok (some r) => .ok (some r)
    | .ok none => tryResolveKBE enum uf actual rest

/-- `tryResolveKBE` with the canonical set enumeration. -/
def tryResolveKB (uf : Nat) (actual : List String) (kb : List (List String)) :
    PyRes (Option (List String × Subst × String)) :=
  tryResolveKBE List.dedup uf actual kb

/-- The `while True` loop of `refutacion_cadena`, with fuel: check the visited
set, insert the canonical key, resolve against the knowledge base in order,
and either succeed on the empty resolvent, continue the chain, or stop. -/
def chainLoopE (enum : List String → List String) (uf : Nat) (kb : List (List String)) :
    Nat → List String → List (List String) → PyRes Bool
  | 0, _, _ => .fuelOut
  | n + 1, actual, vistos =>
    if clausula_to_key actual ∈ vistos then .ok false
    else
      match tryResolveKBE enum uf actual kb with
      | .fuelOut => .fuelOut
      | .valueError => .valueError
      | .ok none => .ok false
      | .ok (some (resolvente, _, _)) =>
        if resolvente = [] then .ok true
        else chainLoopE enum uf kb n resolvente (clausula_to_key actual :: vistos)

/-- Negated goal: `f"¬{meta}"`, or the goal with its leading `¬` stripped when
already negated. -/
def negMeta (meta : String) : String :=
  match meta.data with
  | '¬' :: rest => String.mk rest
  | _ => "¬" ++ meta

/-- `refutacion_cadena` with an explicit set enumeration and fuel, starting
the chain from the singleton clause holding the negated goal. -/
def refutacion_cadenaE (enum : List String → List String) (fuel : Nat)
    (base_clausulas : List (List String)) (meta : String) : PyRes Bool :=
  chainLoopE enum fuel base_clausulas fuel [negMeta meta] []

/-- `refutacion_cadena` with the canonical set enumeration: `ok true` models
the Python `True` return (goal proved), `ok false` the `False` return. -/
def refutacion_cadena (fuel : Nat) (base_clausulas : List (List String)) (meta : String) :
    PyRes Bool :=
  refutacion_cadenaE List.dedup fuel base_clausulas meta

/-- Derivation state reached after `n` successful chain steps: the current
clause and the visited set, `none` when the run has terminated (or erred)
strictly before completing `n` steps. -/
def stateAfterAux (uf : Nat) (kb : List (List String)) :
    Nat → List String → List (List String) → Option (List String × List (List String))
  | 0, actual, vistos => some (actual, vistos)
  | n + 1, actual, vistos =>
    if clausula_to_key actual ∈ vistos then none
    else
      match tryResolveKB uf actual kb with
      | .ok (some (resolvente, _, _)) =>
        if resolvente = [] then none
        else stateAfterAux uf kb n resolvente (clausula_to_key actual :: vistos)
      | _ => none

/-- Derivation state of the run of `refutacion_cadena fuel kb meta` after `n`
chain steps. -/
def stateAfter (fuel : Nat) (kb : List (List String)) (meta : String) (n : Nat) :
    Option (List String × List (List String)) :=
  stateAfterAux fuel kb n [negMeta meta] []

/-- The Marco/Cesar knowledge base of the example files. -/
def kbMarco : List (List String) :=
  [["Hombre(Marco)"],
   ["Pompeyano(Marco)"],
   ["¬Pompeyano(x)", "Romano(x)"],
   ["Gobernante(Cesar)"],
   ["¬Romano(x)", "Leal(x,Cesar)", "Odia(x,Cesar)"],
   ["¬Hombre(x)", "¬Gobernante(y)", "¬IntentaAsesinar(x,y)", "¬Leal(x,y)"],
   ["IntentaAsesinar(Marco,Cesar)"]]

/-- Knowledge base on which the chain revisits the clause `{¬P(a)}`. -/
def kbLoop : List (List String) :=
  [["P(a)", "¬Q(a)"], ["Q(a)", "¬P(a)"]]

/-- The round-trip claim's normalisation, following its words: the literal
text with surrounding and per-argument whitespace removed, keeping negation
marker, predicate, parentheses and the comma-separated arguments as written. -/
def normLit (x : String) : Option String :=
  match parseCore x with
  | none => none
  | some (neg, pred, g2) =>
    some ((if neg then "¬" else "") ++ pred ++
      (match g2 with
       | none => ""
       | some g =>
         "(" ++ joinComma ((pySplitComma g.data).map (fun cs => String.mk (pyStripChars cs)))
           ++ ")"))

/-- Normalisation as `lit_to_str ∘ parse_literal` actually computes it: like
`normLit`, except that a present but empty parenthesized argument list (the
Python-falsy group of `"P()"`) loses its parentheses. -/
def normLitDropEmptyParens (x : String) : Option String :=
  match parseCore x with
  | none => none
  | some (neg, pred, g2) =>
    some ((if neg then "¬" else "") ++ pred ++
      (match g2 with
       | none => ""
       | some g =>
         if g = "" then ""
         else
           "(" ++ joinComma ((pySplitComma g.data).map (fun cs => String.mk (pyStripChars cs)))
             ++ ")"))

/-- Python `list(c)`: a fresh list with the same elements. -/
def pyListCopy (l : List String) : List String :=
  l.map id

/-- The chain loop with the working knowledge base threaded as explicit state,
so that any mutation of it by the loop would be visible in the returned
state. -/
def chainLoopS (uf : Nat) :
    Nat → List (List String) → List String → List (List String) →
      PyRes Bool × List (List String)
  | 0, kb, _, _ => (.fuelOut, kb)
  | n + 1, kb, actual, vistos =>
    if clausula_to_key actual ∈ vistos then (.ok false, kb)
    else
      match tryResolveKB uf actual kb with
      | .fuelOut => (.fuelOut, kb)
      | .valueError => (.valueError, kb)
      | .ok none => (.ok false, kb)
      | .ok (some (resolvente, _, _)) =>
        if resolvente = [] then (.ok true, kb)
        else chainLoopS uf n kb resolvente (clausula_to_key actual :: vistos)

/-- `refutacion_cadena` in the state-threaded form: copy the caller's clause
lists into the working knowledge base (`kb = [list(c) for c in base_clausulas]`)
and run the chain on the copy, returning the working state as well. -/
def refutacion_cadenaS (fuel : Nat) (base_clausulas : List (List String)) (meta : String) :
    PyRes Bool × List (List String) :=
  chainLoopS fuel fuel (base_clausulas.map pyListCopy) [negMeta meta] []

theorem pyLeChars_total : ∀ a b : List Char, pyLeChars a b = true ∨ pyLeChars b a = true := by
  intro a
  induction a with
  | nil => intro b; left; rfl
  | cons x xs ih =>
    intro b
    cases b with
    | nil => right; rfl
    | cons y ys =>
      rcases lt_trichotomy x y with h | h | h
      · left; simp [pyLeChars, h]
      · subst h
        rcases ih ys with h2 | h2
        · left; simp [pyLeChars, h2]
        · right; simp [pyLeChars, h2]
      · right; simp [pyLeChars, h]

theorem pyLeChars_trans : ∀ a b c : List Char,
    pyLeChars a b = true → pyLeChars b c = true → pyLeChars a c = true := by
  intro a
  induction a with
  | nil => intro b c _ _; rfl
  | cons x xs ih =>
    intro b c hab hbc
    cases b with
    | nil => simp [pyLeChars] at hab
    | cons y ys =>
      cases c with
      | nil => simp [pyLeChars] at hbc
      | cons z zs =>
        rcases lt_trichotomy x y with hxy | hxy | hxy
        · rcases lt_trichotomy y z with hyz | hyz | hyz
          · simp [pyLeChars, lt_trans hxy hyz]
          · subst hyz; simp [pyLeChars, hxy]
          · simp [pyLeChars, hyz, lt_asymm hyz] at hbc
        · subst hxy
          simp only [pyLeChars, lt_irrefl, if_neg (lt_irrefl x)] at hab
          rcases lt_trichotomy x z with hyz | hyz | hyz
          · simp [pyLeChars, hyz]
          · subst hyz
            simp only [pyLeChars, lt_irrefl, if_neg (lt_irrefl x)] at hbc ⊢
            exact ih ys zs hab hbc
          · simp [pyLeChars, hyz, lt_asymm hyz] at hbc
        · simp [pyLeChars, hxy, lt_asymm hxy] at hab

theorem pyLeChars_antisymm : ∀ a b : List Char,
    pyLeChars a b = true → pyLeChars b a = true → a = b := by
  intro a
  induction a with
  | nil =>
    intro b _ hba
    cases b with
    | nil => rfl
    | cons y ys => simp [pyLeChars] at hba
  | cons x xs ih =>
    intro b hab hba
    cases b with
    | nil => simp [pyLeChars] at hab
    | cons y ys =>
      rcases lt_trichotomy x y with h | h | h
      · simp [pyLeChars, h, lt_asymm h] at hba
      · subst h
        simp only [pyLeChars, lt_irrefl, if_neg (lt_irrefl x)] at hab hba
        rw [ih ys hab hba]
      · simp [pyLeChars, h, lt_asymm h] at hab

instance : IsTotal String pyLeR :=
  ⟨fun a b => pyLeChars_total a.data b.data⟩

instance : IsTrans String pyLeR :=
  ⟨fun a b c => pyLeChars_trans a.data b.data c.data⟩

instance : IsAntisymm String pyLeR :=
  ⟨fun a b h1 h2 => String.toList_inj.mp (pyLeChars_antisymm a.data b.data h1 h2)⟩

/-- Sorting is invariant under permutation of the input: the sorted list of a
set of strings does not depend on the enumeration order of the set. -/
theorem pySort_perm_eq {l₁ l₂ : List String} (h : l₁.Perm l₂) : pySort l₁ = pySort l₂ :=
  List.eq_of_perm_of_sorted
    ((List.perm_insertionSort pyLeR l₁).trans (h.trans (List.perm_insertionSort pyLeR l₂).symm))
    (List.sorted_insertionSort pyLeR l₁) (List.sorted_insertionSort pyLeR l₂)

theorem chainLoop_succ (enum : List String → List String) (uf : Nat)
    (kb : List (List String)) (n : Nat) (actual : List String) (vistos : List (List String)) :
    chainLoopE enum uf kb (n + 1) actual vistos =
      if clausula_to_key actual ∈ vistos then .ok false
      else
        match tryResolveKBE enum uf actual kb with
        | .fuelOut => .fuelOut
        | .valueError => .valueError
        | .ok none => .ok false
        | .ok (some (resolvente, _, _)) =>
          if resolvente = [] then .ok true
          else chainLoopE enum uf kb n resolvente (clausula_to_key actual :: vistos) := rfl

theorem stateAfterAux_succ_unfold (uf : Nat) (kb : List (List String)) (n : Nat)
    (actual : List String) (vistos : List (List String)) :
    stateAfterAux uf kb (n + 1) actual vistos =
      if clausula_to_key actual ∈ vistos then none
      else
        match tryResolveKB uf actual kb with
        | .ok (some (resolvente, _, _)) =>
          if resolvente = [] then none
          else stateAfterAux uf kb n resolvente (clausula_to_key actual :: vistos)
        | _ => none := rfl

theorem tryResolveKB_eq (uf : Nat) (actual : List String) (kb : List (List String)) :
    tryResolveKBE List.dedup uf actual kb = tryResolveKB uf actual kb := rfl

/-- The chain loop returns `True` exactly when, along its run, it reaches a
fresh current clause whose first applicable resolution against the knowledge
base is the empty clause. -/
theorem chainLoop_true_iff (uf : Nat) (kb : List (List String)) :
    ∀ (m : Nat) (actual : List String) (vistos : List (List String)),
    chainLoopE List.dedup uf kb m actual vistos = PyRes.ok true ↔
    ∃ n, n < m ∧ ∃ cur vis s lc,
      stateAfterAux uf kb n actual vistos = some (cur, vis) ∧
      clausula_to_key cur ∉ vis ∧
      tryResolveKB uf cur kb = PyRes.ok (some ([], s, lc)) := by
  intro m
  induction m with
  | zero =>
    intro actual vistos
    constructor
    · intro h; exact absurd h (by simp [chainLoopE])
    · rintro ⟨n, hn, _⟩; exact absurd hn (Nat.not_lt_zero n)
  | succ m ih =>
    intro actual vistos
    rw [chainLoop_succ, tryResolveKB_eq]
    by_cases h1 : clausula_to_key actual ∈ vistos
    · rw [if_pos h1]
      constructor
      · intro h; exact absurd h (by simp)
      · rintro ⟨n, hn, cur, vis, s, lc, hst, hni, htr⟩
        cases n with
        | zero =>
          simp only [stateAfterAux, Option.some.injEq, Prod.mk.injEq] at hst
          obtain ⟨rfl, rfl⟩ := hst
          exact absurd h1 hni
        | succ n =>
          rw [stateAfterAux_succ_unfold, if_pos h1] at hst
          exact absurd hst (by simp)
    · rw [if_neg h1]
      cases h2 : tryResolveKB uf actual kb with
      | fuelOut =>
        constructor
        · intro h; exact absurd h (by simp)
        · rintro ⟨n, hn, cur, vis, s, lc, hst, hni, htr⟩
          cases n with
          | zero =>
            simp only [stateAfterAux, Option.some.injEq, Prod.mk.injEq] at hst
            obtain ⟨rfl, rfl⟩ := hst
            rw [h2] at htr; exact absurd htr (by simp)
          | succ n =>
            rw [stateAfterAux_succ_unfold, if_neg h1, h2] at hst
            exact absurd hst (by simp)
      | valueError =>
        constructor
        · intro h; exact absurd h (by simp)
        · rintro ⟨n, hn, cur, vis, s, lc, hst, hni, htr⟩
          cases n with
          | zero =>
            simp only [stateAfterAux, Option.some.injEq, Prod.mk.injEq] at hst
            obtain ⟨rfl, rfl⟩ := hst
            rw [h2] at htr; exact absurd htr (by simp)
          | succ n =>
            rw [stateAfterAux_succ_unfold, if_neg h1, h2] at hst
            exact absurd hst (by simp)
      | ok r =>
        cases r with
        | none =>
          constructor
          · intro h; exact absurd h (by simp)
          · rintro ⟨n, hn, cur, vis, s, lc, hst, hni, htr⟩
            cases n with
            | zero =>
              simp only [stateAfterAux, Option.some.injEq, Prod.mk.injEq] at hst
              obtain ⟨rfl, rfl⟩ := hst
              rw [h2] at htr; exact absurd htr (by simp)
            | succ n =>
              rw [stateAfterAux_succ_unfold, if_neg h1, h2] at hst
              exact absurd hst (by simp)
        | some rr =>
          obtain ⟨resolvente, s0, lc0⟩ := rr
          by_cases hr : resolvente = []
          · subst hr
            simp only []
            constructor
            · intro _
              exact ⟨0, Nat.succ_pos m, actual, vistos, s0, lc0, rfl, h1, h2⟩
            · intro _; rfl
          · simp only [if_neg hr]
            constructor
            · intro h
              obtain ⟨n, hn, cur, vis, s, lc, hst, hni, htr⟩ := (ih _ _).mp h
              refine ⟨n + 1, Nat.succ_lt_succ hn, cur, vis, s, lc, ?_, hni, htr⟩
              rw [stateAfterAux_succ_unfold, if_neg h1, h2]
              dsimp only
              rw [if_neg hr]
              exact hst
            · rintro ⟨n, hn, cur, vis, s, lc, hst, hni, htr⟩
              cases n with
              | zero =>
                simp only [stateAfterAux, Option.some.injEq, Prod.mk.injEq] at hst
                obtain ⟨rfl, rfl⟩ := hst
                rw [h2] at htr
                simp only [PyRes.ok.injEq, Option.some.injEq, Prod.mk.injEq] at htr
                exact absurd htr.1 hr
              | succ n =>
                rw [stateAfterAux_succ_unfold, if_neg h1, h2] at hst
                dsimp only at hst
                rw [if_neg hr] at hst
                exact (ih _ _).mpr ⟨n, Nat.lt_of_succ_lt_succ hn, cur, vis, s, lc, hst, hni, htr⟩

/-- The chain loop run from a state that reaches, after `n` more successful
steps, the state `(cur, vis)`, returns the same result as the loop restarted
there with the fuel spent so far removed. -/
theorem chainLoop_reach (uf : Nat) (kb : List (List String)) :
    ∀ (n m : Nat) (actual : List String) (vistos : List (List String))
      (cur : List String) (vis : List (List String)),
    stateAfterAux uf kb n actual vistos = some (cur, vis) → n < m →
    chainLoopE List.dedup uf kb m actual vistos = chainLoopE List.dedup uf kb (m - n) cur vis := by
  intro n
  induction n with
  | zero =>
    intro m actual vistos cur vis hst _
    simp only [stateAfterAux, Option.some.injEq, Prod.mk.injEq] at hst
    obtain ⟨rfl, rfl⟩ := hst
    rw [Nat.sub_zero]
  | succ n ih =>
    intro m actual vistos cur vis hst hlt
    cases m with
    | zero => exact absurd hlt (Nat.not_lt_zero _)
    | succ m =>
      rw [stateAfterAux_succ_unfold] at hst
      by_cases h1 : clausula_to_key actual ∈ vistos
      · rw [if_pos h1] at hst; exact absurd hst (by simp)
      · rw [if_neg h1] at hst
        cases h2 : tryResolveKB uf actual kb with
        | ok r =>
          cases r with
          | some rr =>
            obtain ⟨resolvente, s0, lc0⟩ := rr
            rw [h2] at hst
            dsimp only at hst
            by_cases hr : resolvente = []
            · rw [if_pos hr] at hst; exact absurd hst (by simp)
            · rw [if_neg hr] at hst
              rw [chainLoop_succ, if_neg h1, tryResolveKB_eq, h2]
              dsimp only
              rw [if_neg hr]
              rw [ih m resolvente (clausula_to_key actual :: vistos) cur vis hst
                (Nat.lt_of_succ_lt_succ hlt)]
              rw [Nat.succ_sub_succ]
          | none => rw [h2] at hst; exact absurd hst (by simp)
        | valueError => rw [h2] at hst; exact absurd hst (by simp)
        | fuelOut => rw [h2] at hst; exact absurd hst (by simp)

theorem stateAfterAux_one (uf : Nat) (kb : List (List String)) (cur : List String)
    (vis : List (List String)) :
    stateAfterAux uf kb 1 cur vis =
      if clausula_to_key cur ∈ vis then none
      else
        match tryResolveKB uf cur kb with
        | .ok (some (r, _, _)) =>
          if r = [] then none else some (r, clausula_to_key cur :: vis)
        | _ => none := rfl

/-- One chain step at the end: the state after `n + 1` steps is the state
after `n` steps advanced by a single step. -/
theorem stateAfterAux_add_one (uf : Nat) (kb : List (List String)) :
    ∀ (n : Nat) (actual : List String) (vistos : List (List String)),
    stateAfterAux uf kb (n + 1) actual vistos =
      (stateAfterAux uf kb n actual vistos).bind (fun p => stateAfterAux uf kb 1 p.1 p.2) := by
  intro n
  induction n with
  | zero => intro actual vistos; rfl
  | succ n ih =>
    intro actual vistos
    rw [show n + 1 + 1 = (n + 1) + 1 from rfl, stateAfterAux_succ_unfold uf kb (n + 1),
      stateAfterAux_succ_unfold uf kb n]
    by_cases h1 : clausula_to_key actual ∈ vistos
    · rw [if_pos h1, if_pos h1]; rfl
    · rw [if_neg h1, if_neg h1]
      cases h2 : tryResolveKB uf actual kb with
      | ok r =>
        cases r with
        | some rr =>
          obtain ⟨resolvente, s0, lc0⟩ := rr
          dsimp only
          by_cases hr : resolvente = []
          · rw [if_pos hr, if_pos hr]; rfl
          · rw [if_neg hr, if_neg hr]
            exact ih resolvente (clausula_to_key actual :: vistos)
        | none => rfl
      | valueError => rfl
      | fuelOut => rfl

/-- C1: for the Marco/Cesar knowledge base and the goal literal
`Odia(Marco,Cesar)`, `refutacion_cadena` returns `True`: the chain starting
from the negated goal reaches the empty clause. -/
theorem C1_marco_cesar_proved :
    refutacion_cadena 10 kbMarco "Odia(Marco,Cesar)" = PyRes.ok true := by decide

/-- C2: for every knowledge base and goal, `refutacion_cadena` returns `True`
iff at some step of its run the first applicable resolution of the (fresh)
current clause against the knowledge base yields the empty resolvent; in every
other normally-terminating case it returns `False`. -/
theorem C2_proved_iff_empty_resolvent (fuel : Nat) (kb : List (List String)) (meta : String) :
    (refutacion_cadena fuel kb meta = PyRes.ok true ↔
      ∃ n, n < fuel ∧ ∃ cur vis s lc,
        stateAfter fuel kb meta n = some (cur, vis) ∧
        clausula_to_key cur ∉ vis ∧
        tryResolveKB fuel cur kb = PyRes.ok (some ([], s, lc))) ∧
    (refutacion_cadena fuel kb meta = PyRes.ok false ↔
      ((∃ b, refutacion_cadena fuel kb meta = PyRes.ok b) ∧
        ¬ ∃ n, n < fuel ∧ ∃ cur vis s lc,
          stateAfter fuel kb meta n = some (cur, vis) ∧
          clausula_to_key cur ∉ vis ∧
          tryResolveKB fuel cur kb = PyRes.ok (some ([], s, lc)))) := by
  have h := chainLoop_true_iff fuel kb fuel [negMeta meta] []
  constructor
  · exact h
  · constructor
    · intro hf
      refine ⟨⟨false, hf⟩, ?_⟩
      intro hex
      have htrue : refutacion_cadena fuel kb meta = PyRes.ok true := h.mpr hex
      rw [hf] at htrue
      exact absurd htrue (by simp)
    · rintro ⟨⟨b, hb⟩, hnex⟩
      cases b with
      | false => exact hb
      | true => exact absurd (h.mp hb) hnex

/-- C2 witness: on the Marco/Cesar input the equivalence yields, from the
`True` result, a step whose first applicable resolution is empty. -/
theorem C2_proved_iff_empty_resolvent_witness :
    ∃ n, n < 10 ∧ ∃ cur vis s lc,
      stateAfter 10 kbMarco "Odia(Marco,Cesar)" n = some (cur, vis) ∧
      clausula_to_key cur ∉ vis ∧
      tryResolveKB 10 cur kbMarco = PyRes.ok (some ([], s, lc)) :=
  (C2_proved_iff_empty_resolvent 10 kbMarco "Odia(Marco,Cesar)").1.mp (by decide)

/-- C3: if at some step of the run no knowledge-base clause yields any
(non-tautological) resolution with the current clause, `refutacion_cadena`
terminates there and returns `False`. -/
theorem C3_stuck_returns_false (fuel : Nat) (kb : List (List String)) (meta : String)
    (n : Nat) (cur : List String) (vis : List (List String))
    (hst : stateAfter fuel kb meta n = some (cur, vis))
    (hfresh : clausula_to_key cur ∉ vis)
    (hnone : tryResolveKB fuel cur kb = PyRes.ok none)
    (hlt : n < fuel) :
    refutacion_cadena fuel kb meta = PyRes.ok false := by
  have hreach := chainLoop_reach fuel kb n fuel [negMeta meta] [] cur vis hst hlt
  obtain ⟨k, hk⟩ : ∃ k, fuel - n = k + 1 := ⟨fuel - n - 1, by omega⟩
  show chainLoopE List.dedup fuel kb fuel [negMeta meta] [] = PyRes.ok false
  rw [hreach, hk, chainLoop_succ, if_neg hfresh, tryResolveKB_eq, hnone]

/-- C3 witness: for the knowledge base `{Hombre(Marco)}` and goal
`Romano(Marco)` the run is stuck at the very first step and returns `False`. -/
theorem C3_stuck_returns_false_witness :
    refutacion_cadena 10 [["Hombre(Marco)"]] "Romano(Marco)" = PyRes.ok false :=
  C3_stuck_returns_false 10 [["Hombre(Marco)"]] "Romano(Marco)" 0 ["¬Romano(Marco)"] []
    (by decide) (by decide) (by decide) (by decide)

/-- C4: the canonical key of the current clause is checked against the visited
set at each step — a revisited clause terminates the run immediately with
`False` — and otherwise the key is inserted before resolving. -/
theorem C4_loop_detection (fuel : Nat) (kb : List (List String)) (meta : String)
    (n : Nat) (cur : List String) (vis : List (List String))
    (hst : stateAfter fuel kb meta n = some (cur, vis)) :
    (clausula_to_key cur ∈ vis → n < fuel → refutacion_cadena fuel kb meta = PyRes.ok false) ∧
    (∀ cur2 vis2, stateAfter fuel kb meta (n + 1) = some (cur2, vis2) →
      vis2 = clausula_to_key cur :: vis) := by
  constructor
  · intro hmem hlt
    have hreach := chainLoop_reach fuel kb n fuel [negMeta meta] [] cur vis hst hlt
    obtain ⟨k, hk⟩ : ∃ k, fuel - n = k + 1 := ⟨fuel - n - 1, by omega⟩
    show chainLoopE List.dedup fuel kb fuel [negMeta meta] [] = PyRes.ok false
    rw [hreach, hk, chainLoop_succ, if_pos hmem]
  · intro cur2 vis2 hst2
    have h1 : stateAfter fuel kb meta (n + 1) =
        (stateAfterAux fuel kb n [negMeta meta] []).bind
          (fun p => stateAfterAux fuel kb 1 p.1 p.2) :=
      stateAfterAux_add_one fuel kb n [negMeta meta] []
    rw [h1] at hst2
    have hst' : stateAfterAux fuel kb n [negMeta meta] [] = some (cur, vis) := hst
    rw [hst'] at hst2
    change stateAfterAux fuel kb 1 cur vis = some (cur2, vis2) at hst2
    rw [stateAfterAux_one] at hst2
    by_cases hmem : clausula_to_key cur ∈ vis
    · rw [if_pos hmem] at hst2; exact absurd hst2 (by simp)
    · rw [if_neg hmem] at hst2
      cases h2 : tryResolveKB fuel cur kb with
      | ok r =>
        cases r with
        | some rr =>
          obtain ⟨resolvente, s0, lc0⟩ := rr
          rw [h2] at hst2
          dsimp only at hst2
          by_cases hr : resolvente = []
          · rw [if_pos hr] at hst2; exact absurd hst2 (by simp)
          · rw [if_neg hr] at hst2
            simp only [Option.some.injEq, Prod.mk.injEq] at hst2
            exact hst2.2.symm
        | none => rw [h2] at hst2; exact absurd hst2 (by simp)
      | valueError => rw [h2] at hst2; exact absurd hst2 (by simp)
      | fuelOut => rw [h2] at hst2; exact absurd hst2 (by simp)

theorem resolverInner_some_shape (uf : Nat) (actual base : List String) (la : String)
    (pa : Bool × String × List String) :
    ∀ (lbs : List String) (r : List String) (s : Subst) (lc : String),
    resolverInnerE List.dedup uf actual base la pa lbs = PyRes.ok (some (r, s, lc)) →
    ∃ resolvente, r = pySort (List.dedup resolvente) ∧ hasTaut resolvente = false := by
  intro lbs
  induction lbs with
  | nil => intro r s lc h; exact absurd h (by simp [resolverInnerE])
  | cons lb rest ih =>
    intro r s lc h
    simp only [resolverInnerE] at h
    cases hpb : parse_literal lb with
    | none => rw [hpb] at h; exact absurd h (by simp)
    | some pb =>
      obtain ⟨negb, predb, argsb⟩ := pb
      rw [hpb] at h
      dsimp only at h
      by_cases hpred : pa.2.1 ≠ predb
      · rw [if_pos hpred] at h; exact ih r s lc h
      · rw [if_neg hpred] at h
        by_cases hneg : pa.1 = negb
        · rw [if_pos hneg] at h; exact ih r s lc h
        · rw [if_neg hneg] at h
          cases hu : unificar_lit uf (false, pa.2.1, pa.2.2) (false, predb, argsb) with
          | fuelOut => rw [hu] at h; exact absurd h (by simp)
          | valueError => rw [hu] at h; exact absurd h (by simp)
          | ok u =>
            cases u with
            | none => rw [hu] at h; exact ih r s lc h
            | some subst =>
              rw [hu] at h
              dsimp only at h
              cases hc1 : aplicar_subst_clausulaE List.dedup actual subst with
              | none => rw [hc1] at h; exact absurd h (by simp)
              | some c1_sub =>
                rw [hc1] at h
                dsimp only at h
                cases hc2 : aplicar_subst_clausulaE List.dedup base subst with
                | none => rw [hc2] at h; exact absurd h (by simp)
                | some c2_sub =>
                  rw [hc2] at h
                  dsimp only at h
                  cases hla : aplicar_subst_literal la subst with
                  | none => rw [hla] at h; exact absurd h (by simp)
                  | some la_ap =>
                    rw [hla] at h
                    dsimp only at h
                    cases hlb : aplicar_subst_literal lb subst with
                    | none => rw [hlb] at h; exact absurd h (by simp)
                    | some lb_ap =>
                      rw [hlb] at h
                      dsimp only at h
                      by_cases htaut :
                        hasTaut ((c1_sub ++ c2_sub).filter
                          (fun lit => lit ≠ la_ap && lit ≠ lb_ap)) = true
                      · rw [if_pos htaut] at h; exact ih r s lc h
                      · rw [if_neg htaut] at h
                        simp only [PyRes.ok.injEq, Option.some.injEq, Prod.mk.injEq] at h
                        exact ⟨(c1_sub ++ c2_sub).filter (fun lit => lit ≠ la_ap && lit ≠ lb_ap),
                          h.1.symm, Bool.not_eq_true _ ▸ htaut⟩

theorem resolverOuter_some_shape (uf : Nat) (actual base : List String) :
    ∀ (las : List String) (r : List String) (s : Subst) (lc : String),
    resolverOuterE List.dedup uf actual base las = PyRes.ok (some (r, s, lc)) →
    ∃ resolvente, r = pySort (List.dedup resolvente) ∧ hasTaut resolvente = false := by
  intro las
  induction las with
  | nil => intro r s lc h; exact absurd h (by simp [resolverOuterE])
  | cons la rest ih =>
    intro r s lc h
    simp only [resolverOuterE] at h
    cases hpa : parse_literal la with
    | none => rw [hpa] at h; exact absurd h (by simp)
    | some pa =>
      rw [hpa] at h
      dsimp only at h
      cases hin : resolverInnerE List.dedup uf actual base la pa base with
      | fuelOut => rw [hin] at h; exact absurd h (by simp)
      | valueError => rw [hin] at h; exact absurd h (by simp)
      | ok u =>
        cases u with
        | none => rw [hin] at h; exact ih r s lc h
        | some rr =>
          rw [hin] at h
          dsimp only at h
          simp only [PyRes.ok.injEq, Option.some.injEq] at h
          subst h
          exact resolverInner_some_shape uf actual base la pa base r s lc hin

/-- Membership in the returned resolvent is membership in the filtered
literal list it was built from. -/
theorem mem_pySort_dedup {t : String} {l : List String} :
    t ∈ pySort (List.dedup l) ↔ t ∈ l := by
  unfold pySort
  rw [(List.perm_insertionSort pyLeR (List.dedup l)).mem_iff]
  exact List.mem_dedup

/-- C5: every resolvent returned by `resolver_actual_con_base` is
non-tautological — it never contains a literal together with its negation. -/
theorem C5_resolvent_non_tautological (uf : Nat) (actual base : List String)
    (r : List String) (s : Subst) (lc : String) (t : String)
    (h : resolver_actual_con_base uf actual base = PyRes.ok (some (r, s, lc)))
    (ht : t ∈ r) : ("¬" ++ t) ∉ r := by
  intro hneg
  obtain ⟨resolvente, hr, htaut⟩ := resolverOuter_some_shape uf actual base actual r s lc h
  subst hr
  rw [mem_pySort_dedup] at ht hneg
  obtain ⟨tl⟩ := t
  have hfalse := List.any_eq_false.mp htaut ("¬" ++ ⟨tl⟩) hneg
  have hstart : startsNeg ("¬" ++ ⟨tl⟩) = true := rfl
  have hdrop : dropFirst ("¬" ++ ⟨tl⟩) = ⟨tl⟩ := rfl
  rw [hstart, hdrop] at hfalse
  simp only [Bool.true_and] at hfalse
  exact hfalse (List.elem_iff.mpr ht)

/-- C5 witness: a concrete resolution of `{¬P(a), Q(a)}` with `{P(a), R(a)}`
returns the resolvent `{Q(a), R(a)}`, which does not contain `¬Q(a)`. -/
theorem C5_resolvent_non_tautological_witness :
    ("¬" ++ "Q(a)") ∉ ["Q(a)", "R(a)"] :=
  C5_resolvent_non_tautological 5 ["¬P(a)", "Q(a)"] ["P(a)", "R(a)"]
    ["Q(a)", "R(a)"] [] "¬P(a) ↔ P(a)" "Q(a)" (by decide) (by decide)

/-- C7: term unification from the empty substitution is symmetric — success
is equivalent in both directions, and the resulting substitutions agree up to
the direction of the single binding made. -/
theorem C7_unify_symmetric (uf : Nat) (a b : String) :
    ((∃ s, unificar_args uf a b [] = PyRes.ok (some s)) ↔
      (∃ s, unificar_args uf b a [] = PyRes.ok (some s))) ∧
    (∀ s t, unificar_args uf a b [] = PyRes.ok (some s) →
      unificar_args uf b a [] = PyRes.ok (some t) →
      s = t ∨ ∃ x y, s = [(x, y)] ∧ t = [(y, x)]) := by
  have ha : unificar_args uf a b [] =
      (if a = b then PyRes.ok (some ([] : Subst))
       else if isVarStr a then PyRes.ok (some [(a, b)])
       else if isVarStr b then PyRes.ok (some [(b, a)])
       else PyRes.ok none) := by
    simp [unificar_args, substLookup, substInsert]
  have hb : unificar_args uf b a [] =
      (if b = a then PyRes.ok (some ([] : Subst))
       else if isVarStr b then PyRes.ok (some [(b, a)])
       else if isVarStr a then PyRes.ok (some [(a, b)])
       else PyRes.ok none) := by
    simp [unificar_args, substLookup, substInsert]
  by_cases hab : a = b
  · subst hab
    have e1 : unificar_args uf a a [] = PyRes.ok (some ([] : Subst)) := by
      rw [ha]; rw [if_pos rfl]
    rw [e1]
    refine ⟨Iff.rfl, ?_⟩
    intro s t hs htt
    simp only [PyRes.ok.injEq, Option.some.injEq] at hs htt
    subst hs; subst htt
    exact Or.inl rfl
  · have hba : ¬(b = a) := fun h => hab h.symm
    by_cases hva : isVarStr a = true
    · by_cases hvb : isVarStr b = true
      · have e1 : unificar_args uf a b [] = PyRes.ok (some [(a, b)]) := by
          rw [ha]; rw [if_neg hab]; rw [if_pos hva]
        have e2 : unificar_args uf b a [] = PyRes.ok (some [(b, a)]) := by
          rw [hb]; rw [if_neg hba]; rw [if_pos hvb]
        rw [e1, e2]
        refine ⟨⟨fun _ => ⟨[(b, a)], rfl⟩, fun _ => ⟨[(a, b)], rfl⟩⟩, ?_⟩
        intro s t hs htt
        simp only [PyRes.ok.injEq, Option.some.injEq] at hs htt
        subst hs; subst htt
        exact Or.inr ⟨a, b, rfl, rfl⟩
      · have e1 : unificar_args uf a b [] = PyRes.ok (some [(a, b)]) := by
          rw [ha]; rw [if_neg hab]; rw [if_pos hva]
        have e2 : unificar_args uf b a [] = PyRes.ok (some [(a, b)]) := by
          rw [hb]; rw [if_neg hba]; rw [if_neg hvb]; rw [if_pos hva]
        rw [e1, e2]
        refine ⟨Iff.rfl, ?_⟩
        intro s t hs htt
        simp only [PyRes.ok.injEq, Option.some.injEq] at hs htt
        subst hs; subst htt
        exact Or.inl rfl
    · by_cases hvb : isVarStr b = true
      · have e1 : unificar_args uf a b [] = PyRes.ok (some [(b, a)]) := by
          rw [ha]; rw [if_neg hab]; rw [if_neg hva]; rw [if_pos hvb]
        have e2 : unificar_args uf b a [] = PyRes.ok (some [(b, a)]) := by
          rw [hb]; rw [if_neg hba]; rw [if_pos hvb]
        rw [e1, e2]
        refine ⟨Iff.rfl, ?_⟩
        intro s t hs htt
        simp only [PyRes.ok.injEq, Option.some.injEq] at hs htt
        subst hs; subst htt
        exact Or.inl rfl
      · have e1 : unificar_args uf a b [] = PyRes.ok none := by
          rw [ha]; rw [if_neg hab]; rw [if_neg hva]; rw [if_neg hvb]
        have e2 : unificar_args uf b a [] = PyRes.ok none := by
          rw [hb]; rw [if_neg hba]; rw [if_neg hvb]; rw [if_neg hva]
        rw [e1, e2]
        refine ⟨Iff.rfl, ?_⟩
        intro s t hs _
        exact absurd hs (by simp)

/-- C7 witness: unifying the variables `x` and `y` in both directions yields
the same binding up to direction. -/
theorem C7_unify_symmetric_witness :
    ([("x", "y")] : Subst) = [("y", "x")] ∨
      ∃ u v, ([("x", "y")] : Subst) = [(u, v)] ∧ ([("y", "x")] : Subst) = [(v, u)] :=
  (C7_unify_symmetric 0 "x" "y").2 [("x", "y")] [("y", "x")] (by decide) (by decide)

theorem pySplitComma_ne_nil : ∀ l : List Char, pySplitComma l ≠ [] := by
  intro l
  induction l with
  | nil => simp [pySplitComma]
  | cons c r ih =>
    simp only [pySplitComma]
    by_cases hc : (c == ',') = true
    · rw [if_pos hc]; simp
    · rw [if_neg hc]
      cases h : pySplitComma r with
      | nil => exact absurd h ih
      | cons hd tl => simp

/-- C6 counterexample: the text `"P()"` is accepted by `parse_literal`, but
formatting its parse drops the empty parentheses, so the formatted result is
not the input with whitespace removed. -/
theorem C6_roundtrip_counterexample :
    parse_literal "P()" = some (false, "P", []) ∧
    lit_to_str false "P" [] = "P" ∧
    normLit "P()" = some "P()" ∧
    normLit "P()" ≠ some (lit_to_str false "P" []) := by
  refine ⟨by decide, by decide, by decide, ?_⟩
  intro h
  rw [show normLit "P()" = some "P()" from by decide] at h
  simp only [Option.some.injEq] at h
  exact absurd h (by decide)

/-- C6 amended: for every text accepted by `parse_literal`, formatting the
parse yields the text with surrounding and per-argument whitespace removed,
except that a present-but-blank argument list `()` is dropped. -/
theorem C6_roundtrip_amended (x : String) (neg : Bool) (pred : String) (args : List String)
    (h : parse_literal x = some (neg, pred, args)) :
    normLitDropEmptyParens x = some (lit_to_str neg pred args) := by
  unfold parse_literal at h
  unfold normLitDropEmptyParens
  cases hc : parseCore x with
  | none => rw [hc] at h; exact absurd h (by simp)
  | some p =>
    obtain ⟨n, pr, g2⟩ := p
    rw [hc] at h
    dsimp only at h
    simp only [Option.some.injEq, Prod.mk.injEq] at h
    obtain ⟨rfl, rfl, rfl⟩ := h
    dsimp only
    cases g2 with
    | none =>
      simp [lit_to_str, argsOf]
    | some g =>
      by_cases hg : g = ""
      · subst hg
        simp [lit_to_str, argsOf]
      · have hargs : argsOf (some g) =
            (pySplitComma g.data).map (fun cs => String.mk (pyStripChars cs)) := by
          simp [argsOf, hg]
        have hne : argsOf (some g) ≠ [] := by
          rw [hargs]
          intro hmap
          exact pySplitComma_ne_nil g.data (List.map_eq_nil_iff.mp hmap)
        dsimp only
        rw [if_neg hg, hargs]
        simp only [lit_to_str, if_neg (hargs ▸ hne)]
        simp [String.append_assoc]

/-- C6 amended witness: a concrete negated two-argument literal with spaces
round-trips to its whitespace-normalised form. -/
theorem C6_roundtrip_amended_witness :
    normLitDropEmptyParens "¬Odia( x , Cesar )" = some (lit_to_str true "Odia" ["x", "Cesar"]) :=
  C6_roundtrip_amended "¬Odia( x , Cesar )" true "Odia" ["x", "Cesar"] (by decide)

/-- C8 counterexample: a knowledge base containing the malformed literal
`"Odia(x,"` does not abort at parse time — the run completes and returns
`True` before the malformed clause is ever parsed. -/
theorem C8_lazy_parse_counterexample :
    refutacion_cadena 10 [["Odia(Marco,Cesar)"], ["Odia(x,"]] "Odia(Marco,Cesar)" =
        PyRes.ok true ∧
    parse_literal "Odia(x," = none := by
  exact ⟨by decide, by decide⟩

/-- C8 amended: a parse failure surfaces lazily, inside the first resolution
attempt that parses the malformed literal — a malformed (negated) goal with a
non-empty knowledge base raises `ValueError` during step 1, while with an
empty knowledge base the same goal run returns `False` without parsing
anything. -/
theorem C8_lazy_parse_amended (fuel : Nat) (kb : List (List String))
    (c : List String) (rest : List (List String)) (meta : String)
    (hkb : kb = c :: rest)
    (hbad : parse_literal (negMeta meta) = none)
    (hfuel : 1 ≤ fuel) :
    refutacion_cadena fuel kb meta = PyRes.valueError ∧
    refutacion_cadena fuel [] meta = PyRes.ok false := by
  obtain ⟨k, rfl⟩ : ∃ k, fuel = k + 1 := ⟨fuel - 1, by omega⟩
  subst hkb
  constructor
  · show chainLoopE List.dedup (k + 1) (c :: rest) (k + 1) [negMeta meta] [] = PyRes.valueError
    rw [chainLoop_succ, if_neg (List.not_mem_nil _)]
    have hres : resolver_actual_con_baseE List.dedup (k + 1) [negMeta meta] c =
        PyRes.valueError := by
      show resolverOuterE List.dedup (k + 1) [negMeta meta] c [negMeta meta] = PyRes.valueError
      simp only [resolverOuterE]
      rw [hbad]
    have htry : tryResolveKBE List.dedup (k + 1) [negMeta meta] (c :: rest) =
        PyRes.valueError := by
      simp only [tryResolveKBE]
      rw [hres]
    rw [htry]
  · show chainLoopE List.dedup (k + 1) [] (k + 1) [negMeta meta] [] = PyRes.ok false
    rw [chainLoop_succ, if_neg (List.not_mem_nil _)]
    rfl

/-- C8 amended witness: the malformed goal `"Odia(x,"` raises during step 1
against a one-clause knowledge base, and returns `False` with an empty one. -/
theorem C8_lazy_parse_amended_witness :
    refutacion_cadena 5 [["Hombre(Marco)"]] "Odia(x," = PyRes.valueError ∧
    refutacion_cadena 5 [] "Odia(x," = PyRes.ok false :=
  C8_lazy_parse_amended 5 [["Hombre(Marco)"]] ["Hombre(Marco)"] [] "Odia(x," rfl
    (by decide) (by decide)

theorem hasTaut_eq_true_iff (l : List String) :
    hasTaut l = true ↔ ∃ x ∈ l, startsNeg x = true ∧ dropFirst x ∈ l := by
  simp [hasTaut, List.any_eq_true, Bool.and_eq_true, List.elem_iff]

/-- The tautology test only inspects which strings occur, so it is invariant
under permutation of the resolvent list. -/
theorem hasTaut_perm {l₁ l₂ : List String} (h : l₁.Perm l₂) : hasTaut l₁ = hasTaut l₂ := by
  have hiff : hasTaut l₁ = true ↔ hasTaut l₂ = true := by
    rw [hasTaut_eq_true_iff, hasTaut_eq_true_iff]
    constructor
    · rintro ⟨x, hx, h1, h2⟩; exact ⟨x, h.mem_iff.mp hx, h1, h.mem_iff.mp h2⟩
    · rintro ⟨x, hx, h1, h2⟩; exact ⟨x, h.mem_iff.mpr hx, h1, h.mem_iff.mpr h2⟩
  cases hb : hasTaut l₂ with
  | true => exact hiff.mpr hb
  | false =>
    cases hb1 : hasTaut l₁ with
    | true => exact absurd (hb ▸ hiff.mp hb1) (by simp)
    | false => rfl

theorem resolverInnerE_enum (enum : List String → List String) (he : IsSetEnum enum)
    (uf : Nat) (actual base : List String) (la : String) (pa : Bool × String × List String) :
    ∀ lbs : List String,
    resolverInnerE enum uf actual base la pa lbs =
      resolverInnerE List.dedup uf actual base la pa lbs := by
  intro lbs
  induction lbs with
  | nil => rfl
  | cons lb rest ih =>
    simp only [resolverInnerE]
    cases hpb : parse_literal lb with
    | none => rfl
    | some pb =>
      obtain ⟨negb, predb, argsb⟩ := pb
      dsimp only
      by_cases hpred : pa.2.1 ≠ predb
      · simp only [if_pos hpred]; exact ih
      · simp only [if_neg hpred]
        by_cases hneg : pa.1 = negb
        · simp only [if_pos hneg]; exact ih
        · simp only [if_neg hneg]
          cases hu : unificar_lit uf (false, pa.2.1, pa.2.2) (false, predb, argsb) with
          | fuelOut => rfl
          | valueError => rfl
          | ok u =>
            cases u with
            | none => exact ih
            | some subst =>
              dsimp only
              cases hm1 : aplicarLits subst actual with
              | none =>
                have e1 : aplicar_subst_clausulaE enum actual subst = none := by
                  simp [aplicar_subst_clausulaE, hm1]
                have e2 : aplicar_subst_clausulaE List.dedup actual subst = none := by
                  simp [aplicar_subst_clausulaE, hm1]
                rw [e1, e2]
              | some m1 =>
                have e1 : aplicar_subst_clausulaE enum actual subst = some (enum m1) := by
                  simp [aplicar_subst_clausulaE, hm1]
                have e2 : aplicar_subst_clausulaE List.dedup actual subst =
                    some (List.dedup m1) := by
                  simp [aplicar_subst_clausulaE, hm1]
                rw [e1, e2]
                dsimp only
                cases hm2 : aplicarLits subst base with
                | none =>
                  have f1 : aplicar_subst_clausulaE enum base subst = none := by
                    simp [aplicar_subst_clausulaE, hm2]
                  have f2 : aplicar_subst_clausulaE List.dedup base subst = none := by
                    simp [aplicar_subst_clausulaE, hm2]
                  rw [f1, f2]
                | some m2 =>
                  have f1 : aplicar_subst_clausulaE enum base subst = some (enum m2) := by
                    simp [aplicar_subst_clausulaE, hm2]
                  have f2 : aplicar_subst_clausulaE List.dedup base subst =
                      some (List.dedup m2) := by
                    simp [aplicar_subst_clausulaE, hm2]
                  rw [f1, f2]
                  dsimp only
                  cases hla : aplicar_subst_literal la subst with
                  | none => rfl
                  | some la_ap =>
                    dsimp only
                    cases hlb : aplicar_subst_literal lb subst with
                    | none => rfl
                    | some lb_ap =>
                      dsimp only
                      have hperm :
                          ((enum m1 ++ enum m2).filter
                            (fun lit => lit ≠ la_ap && lit ≠ lb_ap)).Perm
                          ((List.dedup m1 ++ List.dedup m2).filter
                            (fun lit => lit ≠ la_ap && lit ≠ lb_ap)) :=
                        ((he m1).append (he m2)).filter _
                      rw [hasTaut_perm hperm]
                      by_cases ht :
                        hasTaut ((List.dedup m1 ++ List.dedup m2).filter
                          (fun lit => lit ≠ la_ap && lit ≠ lb_ap)) = true
                      · simp only [if_pos ht]; exact ih
                      · simp only [if_neg ht]
                        rw [pySort_perm_eq ((he _).trans hperm.dedup)]

theorem resolverOuterE_enum (enum : List String → List String) (he : IsSetEnum enum)
    (uf : Nat) (actual base : List String) :
    ∀ las : List String,
    resolverOuterE enum uf actual base las = resolverOuterE List.dedup uf actual base las := by
  intro las
  induction las with
  | nil => rfl
  | cons la rest ih =>
    simp only [resolverOuterE]
    cases hpa : parse_literal la with
    | none => rfl
    | some pa =>
      dsimp only
      rw [resolverInnerE_enum enum he uf actual base la pa base]
      cases hin : resolverInnerE List.dedup uf actual base la pa base with
      | fuelOut => rfl
      | valueError => rfl
      | ok u =>
        cases u with
        | none => exact ih
        | some rr => rfl

theorem tryResolveKBE_enum (enum : List String → List String) (he : IsSetEnum enum)
    (uf : Nat) (actual : List String) :
    ∀ kbs : List (List String),
    tryResolveKBE enum uf actual kbs = tryResolveKBE List.dedup uf actual kbs := by
  intro kbs
  induction kbs with
  | nil => rfl
  | cons claus rest ih =>
    simp only [tryResolveKBE]
    rw [show resolver_actual_con_baseE enum uf actual claus =
        resolver_actual_con_baseE List.dedup uf actual claus from
      resolverOuterE_enum enum he uf actual claus actual]
    cases hres : resolver_actual_con_baseE List.dedup uf actual claus with
    | fuelOut => rfl
    | valueError => rfl
    | ok u =>
      cases u with
      | none => exact ih
      | some rr => rfl

theorem chainLoopE_enum (enum : List String → List String) (he : IsSetEnum enum)
    (uf : Nat) (kb : List (List String)) :
    ∀ (m : Nat) (actual : List String) (vistos : List (List String)),
    chainLoopE enum uf kb m actual vistos = chainLoopE List.dedup uf kb m actual vistos := by
  intro m
  induction m with
  | zero => intro actual vistos; rfl
  | succ m ih =>
    intro actual vistos
    rw [chainLoop_succ, chainLoop_succ]
    by_cases h1 : clausula_to_key actual ∈ vistos
    · simp only [if_pos h1]
    · simp only [if_neg h1]
      rw [tryResolveKBE_enum enum he uf actual kb]
      cases h2 : tryResolveKBE List.dedup uf actual kb with
      | fuelOut => rfl
      | valueError => rfl
      | ok u =>
        cases u with
        | none => rfl
        | some rr =>
          obtain ⟨r, s, lc⟩ := rr
          dsimp only
          by_cases hr : r = []
          · simp only [if_pos hr]
          · simp only [if_neg hr]; exact ih r _

/-- C9: the run is deterministic — its result does not depend on the
enumeration order Python's sets produce.  For every valid set enumeration,
the resolver returns identical resolvents, substitutions and cancelled pairs,
and the whole refutation chain returns the identical result. -/
theorem C9_deterministic_modulo_set_order (enum : List String → List String)
    (he : IsSetEnum enum) :
    (∀ uf actual base,
      resolver_actual_con_baseE enum uf actual base =
        resolver_actual_con_base uf actual base) ∧
    (∀ fuel kb meta,
      refutacion_cadenaE enum fuel kb meta = refutacion_cadena fuel kb meta) := by
  constructor
  · intro uf actual base
    exact resolverOuterE_enum enum he uf actual base actual
  · intro fuel kb meta
    exact chainLoopE_enum enum he fuel kb fuel [negMeta meta] []

/-- C9 witness: the reversed set enumeration gives the same run result on the
Marco/Cesar input. -/
theorem C9_deterministic_modulo_set_order_witness :
    refutacion_cadenaE (fun l => (List.dedup l).reverse) 10 kbMarco "Odia(Marco,Cesar)" =
      refutacion_cadena 10 kbMarco "Odia(Marco,Cesar)" :=
  (C9_deterministic_modulo_set_order (fun l => (List.dedup l).reverse)
    (fun l => (List.dedup l).reverse_perm)).2 10 kbMarco "Odia(Marco,Cesar)"

/-- The threaded chain loop never changes its knowledge-base state and agrees
with the pure model. -/
theorem chainLoopS_eq (uf : Nat) :
    ∀ (n : Nat) (kb : List (List String)) (actual : List String)
      (vistos : List (List String)),
    chainLoopS uf n kb actual vistos = (chainLoopE List.dedup uf kb n actual vistos, kb) := by
  intro n
  induction n with
  | zero => intro kb actual vistos; rfl
  | succ n ih =>
    intro kb actual vistos
    simp only [chainLoopS]
    rw [chainLoop_succ, tryResolveKB_eq]
    by_cases h1 : clausula_to_key actual ∈ vistos
    · simp only [if_pos h1]
    · simp only [if_neg h1]
      cases h2 : tryResolveKB uf actual kb with
      | fuelOut => rfl
      | valueError => rfl
      | ok u =>
        cases u with
        | none => rfl
        | some rr =>
          obtain ⟨r, s, lc⟩ := rr
          dsimp only
          by_cases hr : r = []
          · simp only [if_pos hr]
          · simp only [if_neg hr]
            exact ih kb r (clausula_to_key actual :: vistos)

/-- C10: `refutacion_cadena` does not mutate its `base_clausulas` argument —
the working knowledge base is a copy whose value equals the caller's list, the
loop returns that state unchanged after any run, and the result is the one of
the pure model on the original list. -/
theorem C10_kb_not_mutated (fuel : Nat) (base_clausulas : List (List String)) (meta : String) :
    base_clausulas.map pyListCopy = base_clausulas ∧
    (refutacion_cadenaS fuel base_clausulas meta).2 = base_clausulas ∧
    (refutacion_cadenaS fuel base_clausulas meta).1 =
      refutacion_cadena fuel base_clausulas meta := by
  have hid : pyListCopy = id := funext (fun l => List.map_id l)
  have hcopy : base_clausulas.map pyListCopy = base_clausulas := by
    rw [hid, List.map_id]
  refine ⟨hcopy, ?_, ?_⟩
  · show (chainLoopS fuel fuel (base_clausulas.map pyListCopy) [negMeta meta] []).2 =
      base_clausulas
    rw [hcopy, chainLoopS_eq]
  · show (chainLoopS fuel fuel (base_clausulas.map pyListCopy) [negMeta meta] []).1 =
      refutacion_cadena fuel base_clausulas meta
    rw [hcopy, chainLoopS_eq]
    rfl

/-- C4 witness: on `kbLoop` with goal `P(a)` the chain returns to `{¬P(a)}`
after two steps and the run stops with `False`. -/
theorem C4_loop_detection_witness :
    refutacion_cadena 10 kbLoop "P(a)" = PyRes.ok false :=
  (C4_loop_detection 10 kbLoop "P(a)" 2 ["¬P(a)"] [["¬Q(a)"], ["¬P(a)"]]
    (by decide)).1 (by decide) (by decide)
